import Mathlib

/-!
Shallow embedding of the claude-sync core: the name-sanitization helper
(src/utils/paths.ts), the git command classifier (src/core/git-forwarder.ts)
and the symlink reconciliation engine (SymlinkManager, link-in-repository
variant). Filesystem state is modelled as a finite association list from
relative paths to entries; logging is modelled as an explicit event list.
-/

namespace ClaudeSync

/-! ## paths.ts: sanitizeProjectName -/

/-- Characters admitted by the regex class `[a-z0-9-_]` used in
`sanitizeProjectName` after lowercasing. -/
def allowedChar (c : Char) : Bool :=
  (('a' ≤ c && c ≤ 'z') || ('0' ≤ c && c ≤ '9') || c == '-' || c == '_')

/-- The first replace step: every character outside `[a-z0-9-_]` becomes a
hyphen. -/
def replaceInvalid (l : List Char) : List Char :=
  l.map (fun c => if allowedChar c then c else '-')

/-- The second replace step: collapse every run of hyphens to a single
hyphen. -/
def collapseDashes : List Char → List Char
  | [] => []
  | c :: rest =>
    match collapseDashes rest with
    | [] => [c]
    | d :: rest2 => if c == '-' && d == '-' then d :: rest2 else c :: d :: rest2

/-- The leading-anchor half of the final replace step: drop one leading
hyphen. -/
def dropLeadDash (l : List Char) : List Char :=
  match l with
  | [] => []
  | c :: rest => if c == '-' then rest else c :: rest

/-- The trailing-anchor half of the final replace step: drop one trailing
hyphen. -/
def dropTrailDash (l : List Char) : List Char :=
  (dropLeadDash l.reverse).reverse

/-- `sanitizeProjectName` from src/utils/paths.ts: lowercase, replace
disallowed characters with `-`, collapse hyphen runs, strip one leading and
one trailing hyphen. -/
def sanitizeProjectName (s : String) : String :=
  ⟨dropTrailDash (dropLeadDash (collapseDashes (replaceInvalid (s.data.map Char.toLower))))⟩

/-- No hyphen in first position. -/
def noLeadingDash (l : List Char) : Bool :=
  match l with
  | [] => true
  | c :: _ => !(c == '-')

/-- No hyphen in last position. -/
def noTrailingDash (l : List Char) : Bool :=
  noLeadingDash l.reverse

/-- No two adjacent hyphens anywhere. -/
def noDoubleDash : List Char → Bool
  | c :: d :: rest => !(c == '-' && d == '-') && noDoubleDash (d :: rest)
  | _ => true

/-! ## git-forwarder.ts: buildGitArgs / forward / detectCurrentProject -/

/-- The `{args, cwd}` pair returned by `buildGitArgs`. -/
structure GitPlan where
  args : List String
  cwd : String
deriving DecidableEq, Repr

/-- The `projectScopedCommands` list of `buildGitArgs`. -/
def projectScopedCommands : List String :=
  ["status", "diff", "log", "show", "blame", "ls-files"]

/-- The commands grouped in the `commit`..`tag` switch cases of
`buildGitArgs`. -/
def repoWideSwitchCommands : List String :=
  ["commit", "push", "pull", "fetch", "branch", "checkout", "merge",
   "rebase", "reset", "stash", "tag"]

/-- The `.startsWith("-")` test applied to an argument string: true iff
its first character is a hyphen. -/
def startsWithDash (s : String) : Bool :=
  match s.data with
  | [] => false
  | c :: _ => c == '-'

/-- JavaScript truthiness of the optional `currentProject` string: present
and nonempty. -/
def truthyProject : Option String → Bool
  | none => false
  | some p => !(p == "")

/-- `GitForwarder.buildGitArgs`: switch on the command, returning the
argument vector and working directory for the underlying git invocation.
`syncRepoPath` stands for `this.syncRepo.repoPath`. -/
def buildGitArgs (syncRepoPath : String) (command : String)
    (originalArgs : List String) (currentProject : Option String) : GitPlan :=
  if command = "add" then
    ⟨originalArgs, syncRepoPath⟩
  else if command ∈ repoWideSwitchCommands then
    ⟨originalArgs, syncRepoPath⟩
  else
    if command ∈ projectScopedCommands ∧ truthyProject currentProject then
      let projectPath := "projects/" ++ (currentProject.getD "")
      let hasDoubleDash := originalArgs.contains "--"
      let hasPathArgs :=
        decide (originalArgs.length > 1) &&
          !(startsWithDash (originalArgs.getD 1 ""))
      if !hasDoubleDash && !hasPathArgs then
        ⟨originalArgs ++ ["--", projectPath], syncRepoPath⟩
      else
        ⟨originalArgs, syncRepoPath⟩
    else
      ⟨originalArgs, syncRepoPath⟩

/-- The argument-planning part of `GitForwarder.forward`: an empty argument
list defaults to `["status"]`, then the head is classified by
`buildGitArgs`. -/
def forwardPlan (syncRepoPath : String) (args : List String)
    (currentProject : Option String) : GitPlan :=
  let args2 := if args = [] then ["status"] else args
  buildGitArgs syncRepoPath (args2.headD "") args2 currentProject

/-- The `{root, suggestedName}` pair produced by the project detector for
the process working directory; `none` models the detector throwing. -/
structure GitDetection where
  root : String
  suggestedName : String
deriving DecidableEq, Repr

/-- `GitForwarder.detectCurrentProject`: scan the registry (a name, path
association list) for a project whose stored path equals the detected git
root; failing that, fall back to a project registered under the suggested
name; failing that, report no current project. -/
def detectCurrentProject (detection : Option GitDetection)
    (projects : List (String × String)) : Option String :=
  match detection with
  | none => none
  | some g =>
    match projects.find? (fun p => p.2 = g.root) with
    | some p => some p.1
    | none =>
      if projects.any (fun p => p.1 = g.suggestedName) then
        some g.suggestedName
      else
        none

/-! ## SymlinkManager (link-in-repository variant)

The project slot (the directory tree under `projectDir`) is modelled as an
association list from relative paths to filesystem entries; the set of
source files actually present under `project.path` is modelled as a list of
relative paths. Logger calls are modelled as an explicit event list. -/

/-- A filesystem entry inside the project slot: a regular file, a
directory, or a symlink with its recorded target string. -/
inductive Entry where
  | file
  | dir
  | symlink (target : String)
deriving DecidableEq, Repr

/-- Whether an entry is a symlink (`lstat(..).isSymlink`). -/
def Entry.isLink : Entry → Bool
  | .symlink _ => true
  | _ => false

/-- The slot contents: relative path to entry, one binding per path. -/
abbrev Fs := List (String × Entry)

/-- The entry at a relative path (first binding wins). -/
def Fs.lookup : Fs → String → Option Entry
  | [], _ => none
  | b :: rest, p => if b.1 = p then some b.2 else Fs.lookup rest p

/-- `Deno.remove` of the entry at a relative path. -/
def Fs.erase (fs : Fs) (p : String) : Fs :=
  fs.filter (fun b => !(b.1 == p))

/-- Place an entry at a relative path, replacing whatever was there. -/
def Fs.insert (fs : Fs) (p : String) (e : Entry) : Fs :=
  (p, e) :: fs.erase p

/-- Real filesystem states bind each path at most once. -/
def Fs.keysNodup (fs : Fs) : Prop :=
  (fs.map Prod.fst).Nodup

instance (fs : Fs) : Decidable fs.keysNodup := by
  unfold Fs.keysNodup; infer_instance

/-- Logger levels used by the SymlinkManager. -/
inductive Level where
  | debug
  | warn
deriving DecidableEq, Repr

/-- One logger call. -/
structure LogEvent where
  level : Level
  msg : String
deriving DecidableEq, Repr

/-- A discovered file record (`ClaudeFile`): absolute path and path
relative to the project root. -/
structure ClaudeFile where
  path : String
  relativePath : String
deriving DecidableEq, Repr

/-- The slice of a `Project` record the reconciler reads. -/
structure Project where
  path : String
  trackedFiles : List String
deriving DecidableEq, Repr

/-- `join` of the project root and a tracked relative path, producing the
expected symlink target string. -/
def joinPath (root rel : String) : String :=
  root ++ "/" ++ rel

/-- `SymlinkManager.getProjectSymlinks`: the relative paths of all symlink
entries in the slot. -/
def getProjectSymlinks (fs : Fs) : List String :=
  fs.filterMap (fun b => match b.2 with
    | .symlink _ => some b.1
    | _ => none)

/-- The change-set returned by `updateSymlinks`. -/
structure SyncResult where
  added : List String
  removed : List String
  updated : List String
deriving DecidableEq, Repr

/-- Output of `updateSymlinks`: final slot contents, change-set, logger
events. -/
structure UpdateOut where
  fs : Fs
  res : SyncResult
  events : List LogEvent
deriving DecidableEq, Repr

/-- Orphan-removal phase of `updateSymlinks`: every currently present
symlink whose relative path is not tracked is removed. -/
def removeOrphans (tracked : List String) :
    List String → Fs × List String × List LogEvent → Fs × List String × List LogEvent
  | [], st => st
  | l :: rest, st =>
    if l ∈ tracked then
      removeOrphans tracked rest st
    else
      removeOrphans tracked rest
        (st.1.erase l, st.2.1 ++ [l],
         st.2.2 ++ [⟨.debug, "Removed orphaned symlink: " ++ l⟩])

/-- One iteration of the tracked-file phase of `updateSymlinks` for the
tracked path `tf`.  `src` lists the relative paths that exist under the
project root.  Mirrors the try/catch of the source: a symlink with the
wrong target is removed and, when the source exists, recreated (an
`updated` entry); when the source is gone the recreate throws and the
catch's existence check silently does nothing.  A missing slot entry is
created when the source exists (an `added` entry).  A non-symlink entry is
left untouched with no log. -/
def syncTracked (root : String) (src : List String)
    (st : Fs × List String × List String × List LogEvent) (tf : String) :
    Fs × List String × List String × List LogEvent :=
  let sourcePath := joinPath root tf
  match st.1.lookup tf with
  | some (.symlink t) =>
    if t ≠ sourcePath then
      if tf ∈ src then
        (st.1.insert tf (.symlink sourcePath), st.2.1, st.2.2.1 ++ [tf],
         st.2.2.2 ++ [⟨.debug, "Updated symlink: " ++ tf⟩])
      else
        (st.1.erase tf, st.2.1, st.2.2.1, st.2.2.2)
    else
      st
  | some _ => st
  | none =>
    if tf ∈ src then
      (st.1.insert tf (.symlink sourcePath), st.2.1 ++ [tf], st.2.2.1,
       st.2.2.2 ++ [⟨.debug, "Added symlink: " ++ tf⟩])
    else
      st

/-- `SymlinkManager.updateSymlinks`: remove orphaned symlinks, then repair
each tracked path. -/
def updateSymlinks (project : Project) (src : List String) (fs : Fs) :
    UpdateOut :=
  let links := getProjectSymlinks fs
  let ph1 := removeOrphans project.trackedFiles links (fs, [], [])
  let ph2 := project.trackedFiles.foldl (syncTracked project.path src)
    (ph1.1, [], [], [])
  ⟨ph2.1, ⟨ph2.2.1, ph1.2.1, ph2.2.2.1⟩, ph1.2.2 ++ ph2.2.2.2⟩

/-- The structured error thrown by `createSymlinks`
(`SymlinkError(message, relativePath)`). -/
structure SymlinkErr where
  msg : String
  path : String
deriving DecidableEq, Repr

/-- Output of `createSymlinks`: slot contents when the loop stopped, the
recorded successes, the logger events, and the thrown error if any. -/
structure CreateOut where
  fs : Fs
  created : List String
  events : List LogEvent
  err : Option SymlinkErr
deriving DecidableEq, Repr

/-- One iteration of `createSymlinks` for file `f`: remove a pre-existing
symlink at the destination, then `ensureSymlink(f.path, linkPath)`, which
fails when the source is missing or when a non-link entry still occupies
the destination.  `srcExists` models existence of the absolute source
path. -/
def createStep (srcExists : String → Bool) (fs : Fs) (f : ClaudeFile) :
    Fs × Option SymlinkErr :=
  let fs1 := match fs.lookup f.relativePath with
    | some (.symlink _) => fs.erase f.relativePath
    | _ => fs
  if srcExists f.path then
    match fs1.lookup f.relativePath with
    | none => (fs1.insert f.relativePath (.symlink f.path), none)
    | some _ => (fs1, some ⟨"AlreadyExists", f.relativePath⟩)
  else
    (fs1, some ⟨"NotFound", f.relativePath⟩)

/-- `SymlinkManager.createSymlinks`: process files in order, stopping at
the first failure with a `SymlinkError` carrying that file's relative
path. -/
def createSymlinks (srcExists : String → Bool) (files : List ClaudeFile)
    (fs : Fs) : CreateOut :=
  match files with
  | [] => ⟨fs, [], [], none⟩
  | f :: rest =>
    match createStep srcExists fs f with
    | (fs1, none) =>
      let out := createSymlinks srcExists rest fs1
      ⟨out.fs, f.relativePath :: out.created,
       ⟨.debug, "Created symlink: " ++ f.relativePath⟩ :: out.events, out.err⟩
    | (fs1, some e) => ⟨fs1, [], [], some e⟩

/-- Output of `removeSymlinks`: final slot contents, removed paths, logger
events, and whether the slot directory itself was deleted by the
empty-directory cleanup. -/
structure RemoveOut where
  fs : Fs
  removed : List String
  events : List LogEvent
  slotDirRemoved : Bool
deriving DecidableEq, Repr

/-- The symlink-deletion loop of `removeSymlinks`. -/
def removeLinksLoop :
    List String → Fs × List String × List LogEvent → Fs × List String × List LogEvent
  | [], st => st
  | l :: rest, st =>
    removeLinksLoop rest
      (st.1.erase l, st.2.1 ++ [l],
       st.2.2 ++ [⟨.debug, "Removed symlink: " ++ l⟩])

/-- `SymlinkManager.removeSymlinks`: delete every symlink found in the
slot, then run `cleanEmptyDirs` on the slot directory, which deletes the
directory only when it has zero remaining entries. -/
def removeSymlinks (fs : Fs) : RemoveOut :=
  let links := getProjectSymlinks fs
  let st := removeLinksLoop links (fs, [], [])
  ⟨st.1, st.2.1, st.2.2, decide (st.1 = [])⟩

/-- `SymlinkManager.verifySymlink`: true iff the entry at the link path is
a symlink whose recorded target equals the expected target exactly. -/
def verifySymlink (fs : Fs) (linkRel : String) (targetPath : String) : Bool :=
  match fs.lookup linkRel with
  | some (.symlink t) => t == targetPath
  | _ => false

/-- A tracked path is settled when reconciliation has nothing to do for
it: a correct link, a non-link entry, or no entry with the source absent. -/
def Settled (root : String) (src : List String) (fs : Fs) (tf : String) : Prop :=
  match fs.lookup tf with
  | some (.symlink t) => t = joinPath root tf
  | some _ => True
  | none => tf ∉ src

/-- Every symlink entry in the slot sits at a tracked relative path. -/
def SymTracked (tracked : List String) (fs : Fs) : Prop :=
  ∀ b ∈ fs, b.2.isLink = true → b.1 ∈ tracked

/-! ### Association-list lemmas -/

theorem lookup_erase (fs : Fs) (q p : String) :
    (fs.erase q).lookup p = if p = q then none else fs.lookup p := by
  induction fs with
  | nil => simp [Fs.erase, Fs.lookup]
  | cons b rest ih =>
    simp only [Fs.erase, List.filter_cons] at ih ⊢
    by_cases hbq : b.1 = q
    · rw [if_neg (by simp [hbq])]
      rw [ih]
      by_cases hpq : p = q
      · simp [hpq]
      · have hbp : b.1 ≠ p := fun h => hpq (h ▸ hbq)
        simp [Fs.lookup, hbp, hpq]
    · rw [if_pos (by simp [hbq])]
      by_cases hbp : b.1 = p
      · have hpq : ¬p = q := fun h => hbq (hbp.trans h)
        simp [Fs.lookup, hbp, hpq]
      · simp [Fs.lookup, hbp, ih]

theorem lookup_insert (fs : Fs) (q p : String) (e : Entry) :
    (fs.insert q e).lookup p = if p = q then some e else fs.lookup p := by
  simp only [Fs.insert, Fs.lookup]
  by_cases hpq : p = q
  · simp [hpq]
  · rw [if_neg (fun h : q = p => hpq h.symm), if_neg hpq, lookup_erase,
      if_neg hpq]

theorem mem_of_lookup_eq_some {fs : Fs} {p : String} {e : Entry}
    (h : fs.lookup p = some e) : (p, e) ∈ fs := by
  induction fs with
  | nil => simp [Fs.lookup] at h
  | cons b rest ih =>
    rw [Fs.lookup] at h
    by_cases hb : b.1 = p
    · rw [if_pos hb] at h
      have h2 : b.2 = e := by injection h
      have hbe : b = (p, e) := by
        calc b = (b.1, b.2) := rfl
        _ = (p, e) := by rw [hb, h2]
      exact hbe ▸ List.mem_cons_self _ _
    · rw [if_neg hb] at h
      exact List.mem_cons_of_mem _ (ih h)

theorem mem_erase_subset {fs : Fs} {q : String} {b : String × Entry}
    (h : b ∈ fs.erase q) : b ∈ fs :=
  List.mem_of_mem_filter h

theorem mem_erase_ne {fs : Fs} {q : String} {b : String × Entry}
    (h : b ∈ fs.erase q) : b.1 ≠ q := by
  have := List.of_mem_filter h
  simpa using this

theorem mem_insert_cases {fs : Fs} {q : String} {e : Entry} {b : String × Entry}
    (h : b ∈ fs.insert q e) : b = (q, e) ∨ b ∈ fs := by
  rcases List.mem_cons.mp h with h1 | h1
  · exact Or.inl h1
  · exact Or.inr (mem_erase_subset h1)

theorem lookup_eq_some_of_mem_nodup {fs : Fs} {b : String × Entry}
    (hnd : fs.keysNodup) (h : b ∈ fs) : fs.lookup b.1 = some b.2 := by
  induction fs with
  | nil => simp at h
  | cons c rest ih =>
    have hnd2 : c.1 ∉ rest.map Prod.fst ∧ (rest.map Prod.fst).Nodup := by
      simpa [Fs.keysNodup] using hnd
    rcases List.mem_cons.mp h with hbc | hbr
    · subst hbc; simp [Fs.lookup]
    · have hne : c.1 ≠ b.1 := by
        intro hc
        refine hnd2.1 ?_
        rw [hc]
        exact List.mem_map_of_mem _ hbr
      rw [Fs.lookup, if_neg hne]
      exact ih hnd2.2 hbr

theorem mem_getProjectSymlinks_iff {fs : Fs} {p : String} :
    p ∈ getProjectSymlinks fs ↔ ∃ t, (p, Entry.symlink t) ∈ fs := by
  simp only [getProjectSymlinks, List.mem_filterMap]
  constructor
  · rintro ⟨b, hb, hmatch⟩
    match b, hmatch with
    | (q, .symlink t), hm =>
      simp at hm
      exact ⟨t, hm ▸ hb⟩
  · rintro ⟨t, ht⟩
    exact ⟨(p, .symlink t), ht, rfl⟩

/-! ### Orphan-removal phase lemmas -/

theorem removeOrphans_mem {tracked : List String} {b : String × Entry} :
    ∀ (ks : List String) (st : Fs × List String × List LogEvent),
      b ∈ (removeOrphans tracked ks st).1 →
      b ∈ st.1 ∧ (b.1 ∈ tracked ∨ b.1 ∉ ks) := by
  intro ks
  induction ks with
  | nil => intro st h; simpa [removeOrphans] using h
  | cons l rest ih =>
    intro st h
    by_cases hl : l ∈ tracked
    · simp only [removeOrphans, if_pos hl] at h
      rcases ih _ h with ⟨hmem, hd⟩
      refine ⟨hmem, ?_⟩
      rcases hd with hd | hd
      · exact Or.inl hd
      · by_cases hbl : b.1 = l
        · exact Or.inl (hbl ▸ hl)
        · exact Or.inr (by simp [hbl, hd])
    · simp only [removeOrphans, if_neg hl] at h
      rcases ih _ h with ⟨hmem, hd⟩
      have hbl : b.1 ≠ l := mem_erase_ne hmem
      refine ⟨mem_erase_subset hmem, ?_⟩
      rcases hd with hd | hd
      · exact Or.inl hd
      · exact Or.inr (by simp [hbl, hd])

theorem removeOrphans_lookup {tracked : List String} {p : String} :
    ∀ (ks : List String) (st : Fs × List String × List LogEvent),
      (p ∈ tracked ∨ p ∉ ks) →
      ((removeOrphans tracked ks st).1).lookup p = st.1.lookup p := by
  intro ks
  induction ks with
  | nil => intro st _; simp [removeOrphans]
  | cons l rest ih =>
    intro st hp
    have hrest : p ∈ tracked ∨ p ∉ rest := by
      rcases hp with hp | hp
      · exact Or.inl hp
      · exact Or.inr (fun hmem => hp (List.mem_cons_of_mem _ hmem))
    by_cases hl : l ∈ tracked
    · simp only [removeOrphans, if_pos hl]
      exact ih _ hrest
    · simp only [removeOrphans, if_neg hl]
      rw [ih _ hrest]
      have hpl : p ≠ l := by
        rcases hp with hp | hp
        · intro hpl; exact hl (hpl ▸ hp)
        · intro hpl; exact hp (hpl ▸ List.mem_cons_self _ _)
      simp [lookup_erase, hpl]

theorem removeOrphans_lookup_none {tracked : List String} {p : String} :
    ∀ (ks : List String) (st : Fs × List String × List LogEvent),
      st.1.lookup p = none →
      ((removeOrphans tracked ks st).1).lookup p = none := by
  intro ks
  induction ks with
  | nil => intro st h; simpa [removeOrphans] using h
  | cons l rest ih =>
    intro st h
    by_cases hl : l ∈ tracked
    · simp only [removeOrphans, if_pos hl]; exact ih _ h
    · simp only [removeOrphans, if_neg hl]
      refine ih _ ?_
      by_cases hpl : p = l <;> simp [lookup_erase, hpl, h]

theorem removeOrphans_removes {tracked : List String} {p : String} :
    ∀ (ks : List String) (st : Fs × List String × List LogEvent),
      p ∈ ks → p ∉ tracked →
      ((removeOrphans tracked ks st).1).lookup p = none := by
  intro ks
  induction ks with
  | nil => intro st h; simp at h
  | cons l rest ih =>
    intro st hmem hnt
    rcases List.mem_cons.mp hmem with hpl | hprest
    · subst hpl
      simp only [removeOrphans, if_neg hnt]
      exact removeOrphans_lookup_none _ _ (by simp [lookup_erase])
    · by_cases hl : l ∈ tracked
      · simp only [removeOrphans, if_pos hl]; exact ih _ hprest hnt
      · simp only [removeOrphans, if_neg hl]; exact ih _ hprest hnt

theorem removeOrphans_id {tracked : List String} :
    ∀ (ks : List String) (st : Fs × List String × List LogEvent),
      (∀ k ∈ ks, k ∈ tracked) → removeOrphans tracked ks st = st := by
  intro ks
  induction ks with
  | nil => intro st _; rfl
  | cons l rest ih =>
    intro st h
    have hl : l ∈ tracked := h l (List.mem_cons_self _ _)
    simp only [removeOrphans, if_pos hl]
    exact ih _ (fun k hk => h k (List.mem_cons_of_mem _ hk))

/-! ### Tracked-file phase lemmas -/

theorem settled_of_lookup_eq {root : String} {src : List String}
    {fs fs2 : Fs} {q : String} (hl : fs2.lookup q = fs.lookup q)
    (h : Settled root src fs q) : Settled root src fs2 q := by
  unfold Settled at h ⊢
  rw [hl]
  exact h

theorem syncTracked_lookup_other {root : String} {src : List String}
    {st : Fs × List String × List String × List LogEvent} {tf p : String}
    (hne : p ≠ tf) :
    ((syncTracked root src st tf).1).lookup p = st.1.lookup p := by
  unfold syncTracked
  cases hl : st.1.lookup tf with
  | none =>
    by_cases hs : tf ∈ src <;> simp [hl, hs, lookup_insert, hne]
  | some e =>
    cases e with
    | file => simp [hl]
    | dir => simp [hl]
    | symlink t =>
      by_cases ht : t = joinPath root tf
      · simp [hl, ht]
      · by_cases hs : tf ∈ src <;>
          simp [hl, ht, hs, lookup_insert, lookup_erase, hne]

theorem syncTracked_settled {root : String} {src : List String}
    {st : Fs × List String × List String × List LogEvent} {tf : String} :
    Settled root src (syncTracked root src st tf).1 tf := by
  unfold syncTracked Settled
  cases hl : st.1.lookup tf with
  | none =>
    by_cases hs : tf ∈ src <;> simp [hl, hs, lookup_insert]
  | some e =>
    cases e with
    | file => simp [hl]
    | dir => simp [hl]
    | symlink t =>
      by_cases ht : t = joinPath root tf
      · simp [hl, ht]
      · by_cases hs : tf ∈ src <;>
          simp [hl, ht, hs, lookup_insert, lookup_erase]

theorem syncTracked_id {root : String} {src : List String}
    {st : Fs × List String × List String × List LogEvent} {tf : String}
    (h : Settled root src st.1 tf) : syncTracked root src st tf = st := by
  unfold Settled at h
  unfold syncTracked
  cases hl : st.1.lookup tf with
  | none =>
    rw [hl] at h
    simp [hl, h]
  | some e =>
    cases e with
    | file => simp [hl]
    | dir => simp [hl]
    | symlink t =>
      rw [hl] at h
      simp [hl, h]

theorem syncTracked_mem {root : String} {src : List String}
    {st : Fs × List String × List String × List LogEvent} {tf : String}
    {b : String × Entry} (h : b ∈ (syncTracked root src st tf).1) :
    b ∈ st.1 ∨ b.1 = tf := by
  cases hl : st.1.lookup tf with
  | none =>
    by_cases hs : tf ∈ src
    · have heq : (syncTracked root src st tf).1
          = st.1.insert tf (.symlink (joinPath root tf)) := by
        unfold syncTracked; simp [hl, hs]
      rw [heq] at h
      rcases mem_insert_cases h with h1 | h1
      · exact Or.inr (by rw [h1])
      · exact Or.inl h1
    · have heq : (syncTracked root src st tf).1 = st.1 := by
        unfold syncTracked; simp [hl, hs]
      rw [heq] at h
      exact Or.inl h
  | some e =>
    cases e with
    | file =>
      have heq : (syncTracked root src st tf).1 = st.1 := by
        unfold syncTracked; simp [hl]
      rw [heq] at h
      exact Or.inl h
    | dir =>
      have heq : (syncTracked root src st tf).1 = st.1 := by
        unfold syncTracked; simp [hl]
      rw [heq] at h
      exact Or.inl h
    | symlink t =>
      by_cases ht : t = joinPath root tf
      · have heq : (syncTracked root src st tf).1 = st.1 := by
          unfold syncTracked; simp [hl, ht]
        rw [heq] at h
        exact Or.inl h
      · by_cases hs : tf ∈ src
        · have heq : (syncTracked root src st tf).1
              = st.1.insert tf (.symlink (joinPath root tf)) := by
            unfold syncTracked; simp [hl, ht, hs]
          rw [heq] at h
          rcases mem_insert_cases h with h1 | h1
          · exact Or.inr (by rw [h1])
          · exact Or.inl h1
        · have heq : (syncTracked root src st tf).1 = st.1.erase tf := by
            unfold syncTracked; simp [hl, ht, hs]
          rw [heq] at h
          exact Or.inl (mem_erase_subset h)

theorem syncTracked_events {root : String} {src : List String}
    {st : Fs × List String × List String × List LogEvent} {tf : String}
    {ev : LogEvent} (h : ev ∈ (syncTracked root src st tf).2.2.2) :
    ev ∈ st.2.2.2 ∨ ev.level = .debug := by
  cases hl : st.1.lookup tf with
  | none =>
    by_cases hs : tf ∈ src
    · have heq : (syncTracked root src st tf).2.2.2
          = st.2.2.2 ++ [⟨.debug, "Added symlink: " ++ tf⟩] := by
        unfold syncTracked; simp [hl, hs]
      rw [heq] at h
      rcases List.mem_append.mp h with h1 | h1
      · exact Or.inl h1
      · simp at h1
        exact Or.inr (by rw [h1])
    · have heq : (syncTracked root src st tf).2.2.2 = st.2.2.2 := by
        unfold syncTracked; simp [hl, hs]
      rw [heq] at h
      exact Or.inl h
  | some e =>
    cases e with
    | file =>
      have heq : (syncTracked root src st tf).2.2.2 = st.2.2.2 := by
        unfold syncTracked; simp [hl]
      rw [heq] at h
      exact Or.inl h
    | dir =>
      have heq : (syncTracked root src st tf).2.2.2 = st.2.2.2 := by
        unfold syncTracked; simp [hl]
      rw [heq] at h
      exact Or.inl h
    | symlink t =>
      by_cases ht : t = joinPath root tf
      · have heq : (syncTracked root src st tf).2.2.2 = st.2.2.2 := by
          unfold syncTracked; simp [hl, ht]
        rw [heq] at h
        exact Or.inl h
      · by_cases hs : tf ∈ src
        · have heq : (syncTracked root src st tf).2.2.2
              = st.2.2.2 ++ [⟨.debug, "Updated symlink: " ++ tf⟩] := by
            unfold syncTracked; simp [hl, ht, hs]
          rw [heq] at h
          rcases List.mem_append.mp h with h1 | h1
          · exact Or.inl h1
          · simp at h1
            exact Or.inr (by rw [h1])
        · have heq : (syncTracked root src st tf).2.2.2 = st.2.2.2 := by
            unfold syncTracked; simp [hl, ht, hs]
          rw [heq] at h
          exact Or.inl h

theorem foldSync_settled_preserve {root : String} {src : List String} {q : String} :
    ∀ (l : List String) (st : Fs × List String × List String × List LogEvent),
      Settled root src st.1 q →
      Settled root src (l.foldl (syncTracked root src) st).1 q := by
  intro l
  induction l with
  | nil => intro st h; exact h
  | cons tf rest ih =>
    intro st h
    rw [List.foldl_cons]
    refine ih _ ?_
    by_cases hq : q = tf
    · exact hq ▸ syncTracked_settled
    · exact settled_of_lookup_eq (syncTracked_lookup_other hq) h

theorem foldSync_settled {root : String} {src : List String} :
    ∀ (l : List String) (st : Fs × List String × List String × List LogEvent),
      ∀ tf ∈ l, Settled root src (l.foldl (syncTracked root src) st).1 tf := by
  intro l
  induction l with
  | nil => intro st tf h; simp at h
  | cons hd rest ih =>
    intro st tf h
    rw [List.foldl_cons]
    rcases List.mem_cons.mp h with h1 | h1
    · subst h1
      exact foldSync_settled_preserve _ _ syncTracked_settled
    · exact ih _ tf h1

theorem foldSync_id {root : String} {src : List String} :
    ∀ (l : List String) (st : Fs × List String × List String × List LogEvent),
      (∀ tf ∈ l, Settled root src st.1 tf) →
      l.foldl (syncTracked root src) st = st := by
  intro l
  induction l with
  | nil => intro st _; rfl
  | cons hd rest ih =>
    intro st h
    rw [List.foldl_cons, syncTracked_id (h hd (List.mem_cons_self _ _))]
    exact ih _ (fun tf htf => h tf (List.mem_cons_of_mem _ htf))

theorem foldSync_lookup_nonlink {root : String} {src : List String}
    {p : String} {e : Entry} (he : e.isLink = false) :
    ∀ (l : List String) (st : Fs × List String × List String × List LogEvent),
      st.1.lookup p = some e →
      (l.foldl (syncTracked root src) st).1.lookup p = some e := by
  intro l
  induction l with
  | nil => intro st h; exact h
  | cons tf rest ih =>
    intro st h
    rw [List.foldl_cons]
    refine ih _ ?_
    by_cases hq : p = tf
    · subst hq
      have hset : Settled root src st.1 p := by
        unfold Settled
        rw [h]
        cases e with
        | file => trivial
        | dir => trivial
        | symlink t => simp [Entry.isLink] at he
      rw [syncTracked_id hset]
      exact h
    · rw [syncTracked_lookup_other hq]
      exact h

theorem foldSync_mem {root : String} {src : List String} :
    ∀ (l : List String) (st : Fs × List String × List String × List LogEvent)
      (b : String × Entry), b ∈ (l.foldl (syncTracked root src) st).1 →
      b ∈ st.1 ∨ b.1 ∈ l := by
  intro l
  induction l with
  | nil => intro st b h; exact Or.inl h
  | cons tf rest ih =>
    intro st b h
    rw [List.foldl_cons] at h
    rcases ih _ b h with h1 | h1
    · rcases syncTracked_mem h1 with h2 | h2
      · exact Or.inl h2
      · exact Or.inr (by simp [h2])
    · exact Or.inr (List.mem_cons_of_mem _ h1)

theorem foldSync_events {root : String} {src : List String} :
    ∀ (l : List String) (st : Fs × List String × List String × List LogEvent)
      (ev : LogEvent), ev ∈ (l.foldl (syncTracked root src) st).2.2.2 →
      ev ∈ st.2.2.2 ∨ ev.level = .debug := by
  intro l
  induction l with
  | nil => intro st ev h; exact Or.inl h
  | cons tf rest ih =>
    intro st ev h
    rw [List.foldl_cons] at h
    rcases ih _ ev h with h1 | h1
    · exact syncTracked_events h1
    · exact Or.inr h1

/-! ### updateSymlinks assembly lemmas -/

theorem updateSymlinks_fs (project : Project) (src : List String) (fs : Fs) :
    (updateSymlinks project src fs).fs =
      (project.trackedFiles.foldl (syncTracked project.path src)
        ((removeOrphans project.trackedFiles (getProjectSymlinks fs)
            (fs, [], [])).1, [], [], [])).1 := rfl

theorem updateSymlinks_res (project : Project) (src : List String) (fs : Fs) :
    (updateSymlinks project src fs).res =
      ⟨(project.trackedFiles.foldl (syncTracked project.path src)
          ((removeOrphans project.trackedFiles (getProjectSymlinks fs)
              (fs, [], [])).1, [], [], [])).2.1,
       (removeOrphans project.trackedFiles (getProjectSymlinks fs)
          (fs, [], [])).2.1,
       (project.trackedFiles.foldl (syncTracked project.path src)
          ((removeOrphans project.trackedFiles (getProjectSymlinks fs)
              (fs, [], [])).1, [], [], [])).2.2.1⟩ := rfl

theorem updateSymlinks_events (project : Project) (src : List String) (fs : Fs) :
    (updateSymlinks project src fs).events =
      (removeOrphans project.trackedFiles (getProjectSymlinks fs)
          (fs, [], [])).2.2 ++
      (project.trackedFiles.foldl (syncTracked project.path src)
        ((removeOrphans project.trackedFiles (getProjectSymlinks fs)
            (fs, [], [])).1, [], [], [])).2.2.2 := rfl

theorem removeOrphans_events {tracked : List String} :
    ∀ (ks : List String) (st : Fs × List String × List LogEvent)
      (ev : LogEvent), ev ∈ (removeOrphans tracked ks st).2.2 →
      ev ∈ st.2.2 ∨ ev.level = .debug := by
  intro ks
  induction ks with
  | nil => intro st ev h; exact Or.inl h
  | cons l rest ih =>
    intro st ev h
    by_cases hl : l ∈ tracked
    · simp only [removeOrphans, if_pos hl] at h
      exact ih _ ev h
    · simp only [removeOrphans, if_neg hl] at h
      rcases ih _ ev h with h1 | h1
      · rcases List.mem_append.mp h1 with h2 | h2
        · exact Or.inl h2
        · simp at h2
          exact Or.inr (by rw [h2])
      · exact Or.inr h1

theorem symTracked_update (project : Project) (src : List String) (fs : Fs) :
    SymTracked project.trackedFiles (updateSymlinks project src fs).fs := by
  intro b hb hlink
  rw [updateSymlinks_fs] at hb
  rcases foldSync_mem _ _ _ hb with h1 | h1
  · rcases removeOrphans_mem _ _ h1 with ⟨hmem, hd⟩
    rcases hd with hd | hd
    · exact hd
    · exfalso
      refine hd (mem_getProjectSymlinks_iff.mpr ?_)
      obtain ⟨p, e⟩ := b
      cases e with
      | symlink t => exact ⟨t, hmem⟩
      | file => simp [Entry.isLink] at hlink
      | dir => simp [Entry.isLink] at hlink
  · exact h1

theorem update_settled (project : Project) (src : List String) (fs : Fs) :
    ∀ tf ∈ project.trackedFiles,
      Settled project.path src (updateSymlinks project src fs).fs tf := by
  intro tf htf
  rw [updateSymlinks_fs]
  exact foldSync_settled _ _ tf htf

/-- Claim C2: reconciliation is idempotent — for every project record,
every source-file state and every slot state, running `updateSymlinks`
once and then a second time with no intervening filesystem mutation yields
the empty change-set on the second call. -/
theorem c2_reconcile_idempotent (project : Project) (src : List String)
    (fs : Fs) :
    (updateSymlinks project src (updateSymlinks project src fs).fs).res
      = ⟨[], [], []⟩ := by
  have hsym := symTracked_update project src fs
  have hset := update_settled project src fs
  have hkeys : ∀ k ∈ getProjectSymlinks (updateSymlinks project src fs).fs,
      k ∈ project.trackedFiles := by
    intro k hk
    rcases mem_getProjectSymlinks_iff.mp hk with ⟨t, ht⟩
    exact hsym _ ht rfl
  have h1 : removeOrphans project.trackedFiles
      (getProjectSymlinks (updateSymlinks project src fs).fs)
      ((updateSymlinks project src fs).fs, [], [])
      = ((updateSymlinks project src fs).fs, [], []) :=
    removeOrphans_id _ _ hkeys
  rw [updateSymlinks_res, h1]
  have h2 : project.trackedFiles.foldl (syncTracked project.path src)
      ((updateSymlinks project src fs).fs, [], [], [])
      = ((updateSymlinks project src fs).fs, [], [], []) :=
    foldSync_id _ _ (fun tf htf => hset tf htf)
  rw [show (((updateSymlinks project src fs).fs, ([] : List String),
      ([] : List LogEvent)).1, ([] : List String), ([] : List String),
      ([] : List LogEvent)) = ((updateSymlinks project src fs).fs, [], [], [])
    from rfl, h2]

/-- Claim C1 counterexample: slot where the single tracked path `a` is
occupied by a regular file.  Reconciliation leaves the file untouched but
its event list is empty — no warning-level report is produced, refuting
the claim that the anomaly is surfaced rather than silently ignored. -/
theorem c1_counterexample :
    (updateSymlinks ⟨"/r", ["a"]⟩ ["a"] [("a", Entry.file)]).fs
        = [("a", Entry.file)] ∧
    (updateSymlinks ⟨"/r", ["a"]⟩ ["a"] [("a", Entry.file)]).events = [] := by
  decide

/-- Claim C1 (amended): for every tracked relative path whose slot is
occupied by a regular file, `updateSymlinks` never deletes or overwrites
that entry, but the anomaly is NOT surfaced: every event the operation
emits is debug-level, so no warning-level report is produced. -/
theorem c1_not_a_link_untouched_silent (project : Project) (src : List String)
    (fs : Fs) (tf : String) (htf : tf ∈ project.trackedFiles)
    (hfile : fs.lookup tf = some .file) :
    (updateSymlinks project src fs).fs.lookup tf = some .file ∧
    ∀ ev ∈ (updateSymlinks project src fs).events, ev.level = .debug := by
  constructor
  · rw [updateSymlinks_fs]
    refine foldSync_lookup_nonlink
      (show Entry.file.isLink = false from rfl) _ _ ?_
    show ((removeOrphans project.trackedFiles (getProjectSymlinks fs)
        (fs, [], [])).1).lookup tf = some .file
    rw [removeOrphans_lookup _ _ (Or.inl htf)]
    exact hfile
  · intro ev hev
    rw [updateSymlinks_events] at hev
    rcases List.mem_append.mp hev with h1 | h1
    · rcases removeOrphans_events _ _ _ h1 with h2 | h2
      · simp at h2
      · exact h2
    · rcases foldSync_events _ _ _ h1 with h2 | h2
      · simp at h2
      · exact h2

/-- Witness for the amended C1 theorem at a concrete state. -/
theorem c1_witness :
    (updateSymlinks ⟨"/r", ["a", "b"]⟩ ["a", "b"]
        [("a", Entry.file)]).fs.lookup "a" = some .file :=
  (c1_not_a_link_untouched_silent ⟨"/r", ["a", "b"]⟩ ["a", "b"]
    [("a", Entry.file)] "a" (by decide) (by decide)).1

theorem removeLinksLoop_lookup {p : String} :
    ∀ (ks : List String) (st : Fs × List String × List LogEvent),
      p ∉ ks → ((removeLinksLoop ks st).1).lookup p = st.1.lookup p := by
  intro ks
  induction ks with
  | nil => intro st _; rfl
  | cons l rest ih =>
    intro st hp
    have hpl : p ≠ l := fun h => hp (h ▸ List.mem_cons_self _ _)
    have hprest : p ∉ rest := fun h => hp (List.mem_cons_of_mem _ h)
    simp only [removeLinksLoop]
    rw [ih _ hprest]
    simp [lookup_erase, hpl]

/-- Claim C10: every filesystem entry that `updateSymlinks` or
`removeSymlinks` deletes inside a project slot is either a symlink or an
empty directory: any non-symlink entry present before either operation is
still present (unchanged) afterwards, and the slot directory itself is
removed by the cleanup only when zero entries remain in it. -/
theorem c10_deletes_only_links_or_empty_dirs (project : Project)
    (src : List String) (fs : Fs) (hnd : fs.keysNodup) :
    (∀ p e, fs.lookup p = some e → e.isLink = false →
        (updateSymlinks project src fs).fs.lookup p = some e) ∧
    (∀ p e, fs.lookup p = some e → e.isLink = false →
        (removeSymlinks fs).fs.lookup p = some e) ∧
    ((removeSymlinks fs).slotDirRemoved = true → (removeSymlinks fs).fs = []) := by
  have hnot : ∀ p e, fs.lookup p = some e → e.isLink = false →
      p ∉ getProjectSymlinks fs := by
    intro p e h he hp
    rcases mem_getProjectSymlinks_iff.mp hp with ⟨t, htm⟩
    have hlk := lookup_eq_some_of_mem_nodup hnd htm
    simp only at hlk
    rw [h] at hlk
    injection hlk with hlk2
    rw [hlk2] at he
    simp [Entry.isLink] at he
  refine ⟨?_, ?_, ?_⟩
  · intro p e h he
    rw [updateSymlinks_fs]
    refine foldSync_lookup_nonlink he _ _ ?_
    show ((removeOrphans project.trackedFiles (getProjectSymlinks fs)
        (fs, [], [])).1).lookup p = some e
    rw [removeOrphans_lookup _ _ (Or.inr (hnot p e h he))]
    exact h
  · intro p e h he
    show ((removeLinksLoop (getProjectSymlinks fs) (fs, [], [])).1).lookup p
        = some e
    rw [removeLinksLoop_lookup _ _ (hnot p e h he)]
    exact h
  · intro h
    exact of_decide_eq_true h

/-- Witness for the C10 theorem at a concrete state. -/
theorem c10_witness :
    (updateSymlinks ⟨"/r", ["b"]⟩ []
        [("a", Entry.file), ("b", Entry.symlink "/r/b")]).fs.lookup "a"
      = some Entry.file :=
  (c10_deletes_only_links_or_empty_dirs ⟨"/r", ["b"]⟩ []
    [("a", Entry.file), ("b", Entry.symlink "/r/b")] (by decide)).1
    "a" Entry.file (by decide) rfl

/-! ### createSymlinks lemmas -/

theorem createStep_lookup_nonlink {srcExists : String → Bool} {fs : Fs}
    {f : ClaudeFile} {p : String} {e : Entry} (h : fs.lookup p = some e)
    (he : e.isLink = false) :
    ((createStep srcExists fs f).1).lookup p = some e := by
  by_cases hpf : p = f.relativePath
  · subst hpf
    cases e with
    | symlink t => simp [Entry.isLink] at he
    | file =>
      unfold createStep
      by_cases hs : srcExists f.path <;> simp [h, hs]
    | dir =>
      unfold createStep
      by_cases hs : srcExists f.path <;> simp [h, hs]
  · unfold createStep
    cases hl : fs.lookup f.relativePath with
    | none =>
      by_cases hs : srcExists f.path <;>
        simp [hl, hs, lookup_insert, hpf, h]
    | some e2 =>
      cases e2 with
      | symlink t =>
        by_cases hs : srcExists f.path <;>
          simp [hl, hs, lookup_insert, lookup_erase, hpf, h]
      | file =>
        by_cases hs : srcExists f.path <;> simp [hl, hs, h]
      | dir =>
        by_cases hs : srcExists f.path <;> simp [hl, hs, h]

theorem createStep_lookup_other {srcExists : String → Bool} {fs : Fs}
    {f : ClaudeFile} {p : String} (hpf : p ≠ f.relativePath) :
    ((createStep srcExists fs f).1).lookup p = fs.lookup p := by
  unfold createStep
  cases hl : fs.lookup f.relativePath with
  | none =>
    by_cases hs : srcExists f.path <;> simp [hl, hs, lookup_insert, hpf]
  | some e2 =>
    cases e2 with
    | symlink t =>
      by_cases hs : srcExists f.path <;>
        simp [hl, hs, lookup_insert, lookup_erase, hpf]
    | file => by_cases hs : srcExists f.path <;> simp [hl, hs]
    | dir => by_cases hs : srcExists f.path <;> simp [hl, hs]

theorem createStep_ok_lookup {srcExists : String → Bool} {fs : Fs}
    {f : ClaudeFile} (h : (createStep srcExists fs f).2 = none) :
    ((createStep srcExists fs f).1).lookup f.relativePath
      = some (.symlink f.path) := by
  by_cases hs : srcExists f.path
  · cases hl : fs.lookup f.relativePath with
    | none =>
      have heq : (createStep srcExists fs f).1
          = fs.insert f.relativePath (.symlink f.path) := by
        unfold createStep; simp [hl, hs]
      rw [heq, lookup_insert]
      simp
    | some e2 =>
      cases e2 with
      | symlink t =>
        have heq : (createStep srcExists fs f).1
            = (fs.erase f.relativePath).insert f.relativePath
                (.symlink f.path) := by
          unfold createStep; simp [hl, hs, lookup_erase]
        rw [heq, lookup_insert]
        simp
      | file =>
        have h2 : (createStep srcExists fs f).2
            = some ⟨"AlreadyExists", f.relativePath⟩ := by
          unfold createStep; simp [hl, hs]
        rw [h] at h2
        exact Option.noConfusion h2
      | dir =>
        have h2 : (createStep srcExists fs f).2
            = some ⟨"AlreadyExists", f.relativePath⟩ := by
          unfold createStep; simp [hl, hs]
        rw [h] at h2
        exact Option.noConfusion h2
  · have h2 : (createStep srcExists fs f).2
        = some ⟨"NotFound", f.relativePath⟩ := by
      unfold createStep; simp [hs]
    rw [h] at h2
    exact Option.noConfusion h2

theorem createStep_err_path {srcExists : String → Bool} {fs : Fs}
    {f : ClaudeFile} {er : SymlinkErr}
    (h : (createStep srcExists fs f).2 = some er) :
    er.path = f.relativePath := by
  by_cases hs : srcExists f.path
  · cases hl : fs.lookup f.relativePath with
    | none =>
      have h2 : (createStep srcExists fs f).2 = none := by
        unfold createStep; simp [hl, hs]
      rw [h] at h2
      exact Option.noConfusion h2
    | some e2 =>
      cases e2 with
      | symlink t =>
        have h2 : (createStep srcExists fs f).2 = none := by
          unfold createStep; simp [hl, hs, lookup_erase]
        rw [h] at h2
        exact Option.noConfusion h2
      | file =>
        have h2 : (createStep srcExists fs f).2
            = some ⟨"AlreadyExists", f.relativePath⟩ := by
          unfold createStep; simp [hl, hs]
        rw [h] at h2
        injection h2 with h3
        rw [h3]
      | dir =>
        have h2 : (createStep srcExists fs f).2
            = some ⟨"AlreadyExists", f.relativePath⟩ := by
          unfold createStep; simp [hl, hs]
        rw [h] at h2
        injection h2 with h3
        rw [h3]
  · have h2 : (createStep srcExists fs f).2
        = some ⟨"NotFound", f.relativePath⟩ := by
      unfold createStep; simp [hs]
    rw [h] at h2
    injection h2 with h3
    rw [h3]

theorem createStep_err_of_nonlink {srcExists : String → Bool} {fs : Fs}
    {f : ClaudeFile} {e : Entry}
    (hl : fs.lookup f.relativePath = some e) (he : e.isLink = false) :
    ((createStep srcExists fs f).2).isSome = true := by
  by_cases hs : srcExists f.path
  · cases e with
    | symlink t => simp [Entry.isLink] at he
    | file =>
      have h2 : (createStep srcExists fs f).2
          = some ⟨"AlreadyExists", f.relativePath⟩ := by
        unfold createStep; simp [hl, hs]
      rw [h2]
      rfl
    | dir =>
      have h2 : (createStep srcExists fs f).2
          = some ⟨"AlreadyExists", f.relativePath⟩ := by
        unfold createStep; simp [hl, hs]
      rw [h2]
      rfl
  · have h2 : (createStep srcExists fs f).2
        = some ⟨"NotFound", f.relativePath⟩ := by
      unfold createStep; simp [hs]
    rw [h2]
    rfl

theorem createSymlinks_lookup_nonlink {srcExists : String → Bool} {p : String}
    {e : Entry} (he : e.isLink = false) :
    ∀ (files : List ClaudeFile) (fs : Fs), fs.lookup p = some e →
      (createSymlinks srcExists files fs).fs.lookup p = some e := by
  intro files
  induction files with
  | nil => intro fs h; exact h
  | cons f rest ih =>
    intro fs h
    rcases hstep : createStep srcExists fs f with ⟨fs1, oerr⟩
    have hfs1 : fs1.lookup p = some e := by
      have h2 := @createStep_lookup_nonlink srcExists fs f p e h he
      rw [hstep] at h2
      exact h2
    cases oerr with
    | none =>
      simp only [createSymlinks, hstep]
      exact ih fs1 hfs1
    | some er =>
      simp only [createSymlinks, hstep]
      exact hfs1

theorem createSymlinks_lookup_other {srcExists : String → Bool} {p : String} :
    ∀ (files : List ClaudeFile) (fs : Fs),
      p ∉ files.map ClaudeFile.relativePath →
      (createSymlinks srcExists files fs).fs.lookup p = fs.lookup p := by
  intro files
  induction files with
  | nil => intro fs _; rfl
  | cons f rest ih =>
    intro fs hp
    have hpf : p ≠ f.relativePath := by
      intro h
      exact hp (by rw [List.map_cons, h]; exact List.mem_cons_self _ _)
    have hprest : p ∉ rest.map ClaudeFile.relativePath := by
      intro h
      exact hp (by rw [List.map_cons]; exact List.mem_cons_of_mem _ h)
    rcases hstep : createStep srcExists fs f with ⟨fs1, oerr⟩
    have hother : fs1.lookup p = fs.lookup p := by
      have h2 := @createStep_lookup_other srcExists fs f p hpf
      rw [hstep] at h2
      exact h2
    cases oerr with
    | none =>
      simp only [createSymlinks, hstep]
      rw [ih fs1 hprest]
      exact hother
    | some er =>
      simp only [createSymlinks, hstep]
      exact hother

theorem createSymlinks_err_mem {srcExists : String → Bool} :
    ∀ (files : List ClaudeFile) (fs : Fs) (er : SymlinkErr),
      (createSymlinks srcExists files fs).err = some er →
      er.path ∈ files.map ClaudeFile.relativePath := by
  intro files
  induction files with
  | nil => intro fs er h; exact Option.noConfusion h
  | cons f rest ih =>
    intro fs er h
    rcases hstep : createStep srcExists fs f with ⟨fs1, oerr⟩
    cases oerr with
    | none =>
      simp only [createSymlinks, hstep] at h
      rw [List.map_cons]
      exact List.mem_cons_of_mem _ (ih fs1 er h)
    | some er2 =>
      simp only [createSymlinks, hstep] at h
      injection h with h2
      have hp : er2.path = f.relativePath := by
        refine @createStep_err_path srcExists fs f er2 ?_
        rw [hstep]
      rw [List.map_cons]
      refine List.mem_cons.mpr (Or.inl ?_)
      rw [← h2, hp]

theorem createSymlinks_err_of_occupied {srcExists : String → Bool} :
    ∀ (files : List ClaudeFile) (fs : Fs),
      (∃ f ∈ files, ∃ e, fs.lookup f.relativePath = some e ∧
          e.isLink = false) →
      ((createSymlinks srcExists files fs).err).isSome = true := by
  intro files
  induction files with
  | nil =>
    rintro fs ⟨f, hf, -⟩
    simp at hf
  | cons f rest ih =>
    rintro fs ⟨f0, hf0, e, hl, he⟩
    rcases hstep : createStep srcExists fs f with ⟨fs1, oerr⟩
    cases oerr with
    | some er =>
      simp only [createSymlinks, hstep]
      rfl
    | none =>
      simp only [createSymlinks, hstep]
      rcases List.mem_cons.mp hf0 with h1 | h1
      · exfalso
        have h2 := @createStep_err_of_nonlink srcExists fs f e
          (h1 ▸ hl) he
        rw [hstep] at h2
        exact Bool.noConfusion h2
      · refine ih fs1 ⟨f0, h1, e, ?_, he⟩
        have h2 := @createStep_lookup_nonlink srcExists fs f
          f0.relativePath e hl he
        rw [hstep] at h2
        exact h2

/-- Claim C7: for every input file list, `createSymlinks` removes a
pre-existing destination entry only if it is itself a link — a non-link
entry occupying a destination is never deleted and instead makes the run
fail — and any failure is a structured error carrying the relative path of
one of the input files. -/
theorem c7_create_safe (srcExists : String → Bool) (files : List ClaudeFile)
    (fs : Fs) :
    (∀ p e, fs.lookup p = some e → e.isLink = false →
        (createSymlinks srcExists files fs).fs.lookup p = some e) ∧
    (∀ er, (createSymlinks srcExists files fs).err = some er →
        er.path ∈ files.map ClaudeFile.relativePath) ∧
    ((∃ f ∈ files, ∃ e, fs.lookup f.relativePath = some e ∧
        e.isLink = false) →
      ((createSymlinks srcExists files fs).err).isSome = true) :=
  ⟨fun _ _ h he => createSymlinks_lookup_nonlink he files fs h,
   fun er h => createSymlinks_err_mem files fs er h,
   fun hocc => createSymlinks_err_of_occupied files fs hocc⟩

/-- Witness for the C7 theorem: a regular file occupying the single
destination makes the run fail without deleting it. -/
theorem c7_witness :
    ((createSymlinks (fun _ => true) [⟨"/r/a", "a"⟩]
        [("a", Entry.file)]).err).isSome = true :=
  (c7_create_safe (fun _ => true) [⟨"/r/a", "a"⟩] [("a", Entry.file)]).2.2
    ⟨⟨"/r/a", "a"⟩, by decide, Entry.file, by decide, rfl⟩

/-- Claim C8 counterexample: two input files sharing the relative path `r`
make `createSymlinks` succeed, yet verifying the created link against the
first file's source path returns false — the second creation overwrote the
first link. -/
theorem c8_counterexample :
    (createSymlinks (fun _ => true) [⟨"/a", "r"⟩, ⟨"/b", "r"⟩] []).err
        = none ∧
    (⟨"/a", "r"⟩ : ClaudeFile) ∈
        ([⟨"/a", "r"⟩, ⟨"/b", "r"⟩] : List ClaudeFile) ∧
    verifySymlink
        (createSymlinks (fun _ => true) [⟨"/a", "r"⟩, ⟨"/b", "r"⟩] []).fs
        "r" "/a" = false := by
  decide

/-- Claim C8 (amended): when the input files have pairwise-distinct
relative paths and `createSymlinks` succeeds, verifying every created link
path against the corresponding source file's absolute path returns
true. -/
theorem c8_roundtrip_distinct (srcExists : String → Bool) :
    ∀ (files : List ClaudeFile) (fs : Fs),
      (files.map ClaudeFile.relativePath).Nodup →
      (createSymlinks srcExists files fs).err = none →
      ∀ f ∈ files,
        verifySymlink (createSymlinks srcExists files fs).fs
          f.relativePath f.path = true := by
  intro files
  induction files with
  | nil =>
    intro fs _ _ f hf
    simp at hf
  | cons g rest ih =>
    intro fs hnd hok f hf
    rcases hstep : createStep srcExists fs g with ⟨fs1, oerr⟩
    cases oerr with
    | some er =>
      simp only [createSymlinks, hstep] at hok
      exact Option.noConfusion hok
    | none =>
      have hok2 : (createSymlinks srcExists rest fs1).err = none := by
        simp only [createSymlinks, hstep] at hok
        exact hok
      rw [List.map_cons] at hnd
      have hnotin : g.relativePath ∉ rest.map ClaudeFile.relativePath :=
        (List.nodup_cons.mp hnd).1
      have hndrest : (rest.map ClaudeFile.relativePath).Nodup :=
        (List.nodup_cons.mp hnd).2
      rcases List.mem_cons.mp hf with h1 | h1
      · subst h1
        simp only [createSymlinks, hstep]
        have hpre : (createSymlinks srcExists rest fs1).fs.lookup
            f.relativePath = fs1.lookup f.relativePath :=
          createSymlinks_lookup_other rest fs1 hnotin
        have hlk : fs1.lookup f.relativePath = some (.symlink f.path) := by
          have h2 := @createStep_ok_lookup srcExists fs f (by rw [hstep])
          rw [hstep] at h2
          exact h2
        unfold verifySymlink
        rw [hpre, hlk]
        simp
      · simp only [createSymlinks, hstep]
        exact ih fs1 hndrest hok2 f h1

/-- Witness for the amended C8 theorem at a concrete run. -/
theorem c8_witness :
    verifySymlink
      (createSymlinks (fun _ => true) [⟨"/r/a", "a"⟩] []).fs "a" "/r/a"
      = true :=
  c8_roundtrip_distinct (fun _ => true) [⟨"/r/a", "a"⟩] [] (by decide)
    (by decide) ⟨"/r/a", "a"⟩ (by decide)

/-! ### sanitizeProjectName lemmas -/

theorem mem_collapseDashes {c : Char} :
    ∀ {l : List Char}, c ∈ collapseDashes l → c ∈ l := by
  intro l
  induction l with
  | nil => intro h; simp [collapseDashes] at h
  | cons a rest ih =>
    intro h
    cases hc : collapseDashes rest with
    | nil =>
      simp only [collapseDashes, hc] at h
      rcases List.mem_cons.mp h with h1 | h1
      · exact h1 ▸ List.mem_cons_self _ _
      · simp at h1
    | cons d rest2 =>
      simp only [collapseDashes, hc] at h
      by_cases hd : (a == '-' && d == '-') = true
      · rw [if_pos hd] at h
        refine List.mem_cons_of_mem _ (ih ?_)
        rw [hc]
        exact h
      · rw [if_neg hd] at h
        rcases List.mem_cons.mp h with h1 | h1
        · exact h1 ▸ List.mem_cons_self _ _
        · refine List.mem_cons_of_mem _ (ih ?_)
          rw [hc]
          exact h1

theorem noDoubleDash_cons {c : Char} {l : List Char}
    (h : noDoubleDash (c :: l) = true) : noDoubleDash l = true := by
  cases l with
  | nil => rfl
  | cons d rest =>
    simp only [noDoubleDash, Bool.and_eq_true] at h
    exact h.2

theorem noDoubleDash_collapseDashes (l : List Char) :
    noDoubleDash (collapseDashes l) = true := by
  induction l with
  | nil => rfl
  | cons a rest ih =>
    cases hc : collapseDashes rest with
    | nil => simp [collapseDashes, hc, noDoubleDash]
    | cons d rest2 =>
      rw [hc] at ih
      simp only [collapseDashes, hc]
      by_cases hd : (a == '-' && d == '-') = true
      · rw [if_pos hd]
        exact ih
      · rw [if_neg hd]
        simp only [noDoubleDash, Bool.and_eq_true]
        refine ⟨?_, ih⟩
        rw [Bool.not_eq_true']
        exact Bool.eq_false_iff.mpr hd

theorem noDoubleDash_iff_chain {l : List Char} :
    noDoubleDash l = true ↔ l.Chain' (fun a b => ¬(a = '-' ∧ b = '-')) := by
  induction l with
  | nil => simp [noDoubleDash]
  | cons a rest ih =>
    cases rest with
    | nil => simp [noDoubleDash]
    | cons d rest2 =>
      rw [List.chain'_cons]
      simp only [noDoubleDash, Bool.and_eq_true]
      constructor
      · rintro ⟨h1, h2⟩
        refine ⟨?_, ih.mp h2⟩
        rintro ⟨ha, hb⟩
        rw [Bool.not_eq_true', Bool.and_eq_false_iff] at h1
        rcases h1 with h1 | h1 <;> simp [ha, hb] at h1
      · rintro ⟨h1, h2⟩
        refine ⟨?_, ih.mpr h2⟩
        have hfalse : (a == '-' && d == '-') = false := by
          rcases Decidable.em (a = '-') with ha | ha
          · have hb : ¬d = '-' := fun hb => h1 ⟨ha, hb⟩
            simp [hb]
          · simp [ha]
        simp [hfalse]

theorem noDoubleDash_reverse {l : List Char} (h : noDoubleDash l = true) :
    noDoubleDash l.reverse = true := by
  rw [noDoubleDash_iff_chain] at h ⊢
  rw [List.chain'_reverse]
  exact List.Chain'.imp (fun a b hab hc => hab ⟨hc.2, hc.1⟩) h

theorem noLeadingDash_dropLeadDash {l : List Char}
    (h : noDoubleDash l = true) :
    noLeadingDash (dropLeadDash l) = true := by
  cases l with
  | nil => rfl
  | cons c rest =>
    simp only [dropLeadDash]
    by_cases hc : (c == '-') = true
    · rw [if_pos hc]
      cases rest with
      | nil => rfl
      | cons d rest2 =>
        simp only [noDoubleDash, Bool.and_eq_true] at h
        have h1 := h.1
        rw [Bool.not_eq_true', Bool.and_eq_false_iff] at h1
        rcases h1 with h1 | h1
        · rw [hc] at h1
          exact Bool.noConfusion h1
        · simp only [noLeadingDash]
          simp [h1]
    · rw [if_neg hc]
      simp only [noLeadingDash]
      simpa using hc

theorem noDoubleDash_dropLeadDash {l : List Char}
    (h : noDoubleDash l = true) :
    noDoubleDash (dropLeadDash l) = true := by
  cases l with
  | nil => rfl
  | cons c rest =>
    simp only [dropLeadDash]
    by_cases hc : (c == '-') = true
    · rw [if_pos hc]
      exact noDoubleDash_cons h
    · rw [if_neg hc]
      exact h

theorem mem_dropLeadDash {c : Char} {l : List Char}
    (h : c ∈ dropLeadDash l) : c ∈ l := by
  cases l with
  | nil => simp [dropLeadDash] at h
  | cons a rest =>
    simp only [dropLeadDash] at h
    by_cases ha : (a == '-') = true
    · rw [if_pos ha] at h
      exact List.mem_cons_of_mem _ h
    · rw [if_neg ha] at h
      exact h

theorem mem_dropTrailDash {c : Char} {l : List Char}
    (h : c ∈ dropTrailDash l) : c ∈ l := by
  unfold dropTrailDash at h
  rw [List.mem_reverse] at h
  have h2 := mem_dropLeadDash h
  rwa [List.mem_reverse] at h2

theorem reverse_tail_reverse (l : List Char) :
    (l.reverse.tail).reverse = l.dropLast := by
  rcases List.eq_nil_or_concat l with rfl | ⟨ys, a, rfl⟩
  · rfl
  · simp

theorem noLeadingDash_dropLast {l : List Char}
    (h : noLeadingDash l = true) : noLeadingDash l.dropLast = true := by
  cases l with
  | nil => rfl
  | cons a rest =>
    cases rest with
    | nil => rfl
    | cons b rest2 => exact h

theorem noLeadingDash_dropTrailDash {l : List Char}
    (hlead : noLeadingDash l = true) :
    noLeadingDash (dropTrailDash l) = true := by
  unfold dropTrailDash
  cases hr : l.reverse with
  | nil => rfl
  | cons a rest =>
    simp only [dropLeadDash]
    by_cases ha : (a == '-') = true
    · rw [if_pos ha]
      have he : rest.reverse = l.dropLast := by
        have h2 := reverse_tail_reverse l
        rw [hr] at h2
        exact h2
      rw [he]
      exact noLeadingDash_dropLast hlead
    · rw [if_neg ha]
      rw [← hr, List.reverse_reverse]
      exact hlead

/-- Claim C9 counterexample: underscores are kept verbatim by
`sanitizeProjectName`, so leading, trailing and duplicated `_` separators
survive sanitization, refuting the claim that no leading, trailing or
duplicate separator characters remain. -/
theorem c9_counterexample :
    sanitizeProjectName "_a_" = "_a_" ∧
    sanitizeProjectName "a__b" = "a__b" := by
  constructor <;> rfl

/-- Claim C9 (amended): for every input string the sanitized name contains
only lowercase alphanumerics, `-` and `_`, with no leading, trailing or
duplicate hyphens (underscores are preserved as-is and may lead, trail or
repeat); the claim's examples hold: `"My Project!!"` yields `"my-project"`
and `"--a--b--"` yields `"a-b"`. -/
theorem c9_sanitize_amended :
    (∀ s : String,
      (sanitizeProjectName s).data.all allowedChar = true ∧
      noLeadingDash (sanitizeProjectName s).data = true ∧
      noTrailingDash (sanitizeProjectName s).data = true ∧
      noDoubleDash (sanitizeProjectName s).data = true) ∧
    sanitizeProjectName "My Project!!" = "my-project" ∧
    sanitizeProjectName "--a--b--" = "a-b" := by
  refine ⟨fun s => ?_, rfl, rfl⟩
  have hdata : (sanitizeProjectName s).data =
      dropTrailDash (dropLeadDash (collapseDashes
        (replaceInvalid (s.data.map Char.toLower)))) := rfl
  have hkd : noDoubleDash (collapseDashes
      (replaceInvalid (s.data.map Char.toLower))) = true :=
    noDoubleDash_collapseDashes _
  have h1d := noDoubleDash_dropLeadDash hkd
  have h1l := noLeadingDash_dropLeadDash hkd
  refine ⟨?_, ?_, ?_, ?_⟩
  · rw [hdata, List.all_eq_true]
    intro c hc
    have hc3 := mem_collapseDashes (mem_dropLeadDash (mem_dropTrailDash hc))
    rcases List.mem_map.mp hc3 with ⟨a, _, ha⟩
    by_cases hall : allowedChar a = true
    · rw [← ha, if_pos hall]
      exact hall
    · rw [← ha, if_neg hall]
      rfl
  · rw [hdata]
    exact noLeadingDash_dropTrailDash h1l
  · rw [hdata]
    unfold noTrailingDash
    rw [show (dropTrailDash (dropLeadDash (collapseDashes
        (replaceInvalid (s.data.map Char.toLower))))).reverse =
      dropLeadDash (dropLeadDash (collapseDashes
        (replaceInvalid (s.data.map Char.toLower)))).reverse from by
        unfold dropTrailDash; rw [List.reverse_reverse]]
    exact noLeadingDash_dropLeadDash (noDoubleDash_reverse h1d)
  · rw [hdata]
    unfold dropTrailDash
    exact noDoubleDash_reverse
      (noDoubleDash_dropLeadDash (noDoubleDash_reverse h1d))

/-! ### Command classifier theorems -/

/-- The condition under which `buildGitArgs` treats the caller as having
already supplied an explicit path filter: a literal `--` anywhere, or a
non-flag string at position 1 (immediately after the command name). -/
def hasPathFilterArgs (args : List String) : Bool :=
  args.contains "--" ||
    (decide (args.length > 1) && !(startsWithDash (args.getD 1 "")))

theorem buildGitArgs_cwd (root cmd : String) (args : List String)
    (cp : Option String) : (buildGitArgs root cmd args cp).cwd = root := by
  unfold buildGitArgs
  split
  · rfl
  · split
    · rfl
    · split
      · dsimp only
        split <;> rfl
      · rfl

theorem buildGitArgs_scoped (root cmd : String) (args : List String)
    (p : String) (h1 : cmd ∈ projectScopedCommands) (h2 : p ≠ "") :
    buildGitArgs root cmd args (some p) =
      if hasPathFilterArgs args then ⟨args, root⟩
      else ⟨args ++ ["--", "projects/" ++ p], root⟩ := by
  have htruthy : truthyProject (some p) = true := by
    simp only [truthyProject, Bool.not_eq_true']
    exact beq_eq_false_iff_ne.mpr h2
  fin_cases h1 <;>
  · simp only [buildGitArgs]
    rw [if_neg (by decide), if_neg (by decide),
      if_pos (⟨by decide, htruthy⟩ :
        _ ∈ projectScopedCommands ∧ truthyProject (some p) = true)]
    cases hF : args.contains "--" <;>
      cases hG : decide (args.length > 1) &&
          !(startsWithDash (args.getD 1 "")) <;>
        (simp only [hasPathFilterArgs, hF, hG]; simp)

/-- Claim C3 counterexample: with current project `demo` and arguments
`["status", "-s", "README.md"]`, a non-flag positional (`README.md`)
appears beyond the command name and no `--` is present, yet the code still
appends the path filter, because it only inspects position 1. -/
theorem c3_counterexample :
    (buildGitArgs "/sync" "status" ["status", "-s", "README.md"]
        (some "demo")).args
      = ["status", "-s", "README.md", "--", "projects/demo"] ∧
    startsWithDash "README.md" = false ∧
    (["status", "-s", "README.md"] : List String).contains "--" = false := by
  refine ⟨rfl, rfl, rfl⟩

/-- Claim C3 (amended): for every project-scoped read command with a known
nonempty current project, classification runs in the centralized root and
appends `--` plus the project slot path exactly when the caller supplied
neither a literal `--` nor a non-flag string at position 1 (immediately
after the command name — later positions are not inspected); otherwise the
arguments are forwarded unchanged. -/
theorem c3_scoped_append (root cmd : String) (args : List String)
    (p : String) (h1 : cmd ∈ projectScopedCommands) (h2 : p ≠ "") :
    (buildGitArgs root cmd args (some p)).cwd = root ∧
    (hasPathFilterArgs args = false →
      (buildGitArgs root cmd args (some p)).args
        = args ++ ["--", "projects/" ++ p]) ∧
    (hasPathFilterArgs args = true →
      (buildGitArgs root cmd args (some p)).args = args) := by
  refine ⟨buildGitArgs_cwd root cmd args (some p), ?_, ?_⟩
  · intro hF
    rw [buildGitArgs_scoped root cmd args p h1 h2, if_neg (by simp [hF])]
  · intro hF
    rw [buildGitArgs_scoped root cmd args p h1 h2, if_pos hF]

/-- Witness for the amended C3 theorem: the claim's own example. -/
theorem c3_witness :
    (buildGitArgs "/sync" "status" ["status"] (some "demo")).args
      = ["status"] ++ ["--", "projects/" ++ "demo"] :=
  (c3_scoped_append "/sync" "status" ["status"] "demo" (by decide)
    (by decide)).2.1 (by decide)

/-- Claim C4: every command in the repository-wide set is forwarded with
the argument list unmodified and the centralized repository root as
working directory, for every argument list and every current-project
context. -/
theorem c4_repo_wide_verbatim (root cmd : String) (args : List String)
    (cp : Option String)
    (h : cmd ∈ ["commit", "push", "pull", "fetch", "branch", "checkout",
      "merge", "rebase", "reset", "stash", "tag", "add"]) :
    buildGitArgs root cmd args cp = ⟨args, root⟩ := by
  fin_cases h <;> simp [buildGitArgs, repoWideSwitchCommands]

/-- Witness for the C4 theorem: the claim's own example. -/
theorem c4_witness :
    buildGitArgs "/sync" "commit" ["commit", "-m", "x"] (some "demo")
      = ⟨["commit", "-m", "x"], "/sync"⟩ :=
  c4_repo_wide_verbatim "/sync" "commit" ["commit", "-m", "x"]
    (some "demo") (by decide)

/-- Claim C5 counterexample: the registry holds a single project `demo`
stored at `/x`, the detected git root is `/y` (different), yet the
detector still reports `demo` as current via the suggested-name fallback,
refuting the claim that a root mismatch is always treated as
project-not-found with no fallback by name. -/
theorem c5_counterexample :
    detectCurrentProject (some ⟨"/y", "demo"⟩) [("demo", "/x")]
        = some "demo" ∧
    (("/x" : String) == "/y") = false := by
  refine ⟨rfl, rfl⟩

/-- Claim C5 (amended): detection first reports the first registered
project whose stored path equals the detected root; when no stored path
matches, it falls back to a project registered under the suggested name
derived from the working directory; only when both fail (or detection
itself fails) is no current project reported. -/
theorem c5_detect_with_name_fallback (g : GitDetection)
    (ps : List (String × String)) :
    (∀ n, detectCurrentProject (some g) ps = some n →
        (n, g.root) ∈ ps ∨
        ((∀ q ∈ ps, q.2 ≠ g.root) ∧ n = g.suggestedName ∧
          ∃ q ∈ ps, q.1 = n)) ∧
    ((∀ q ∈ ps, q.2 ≠ g.root) → (∃ q ∈ ps, q.1 = g.suggestedName) →
        detectCurrentProject (some g) ps = some g.suggestedName) ∧
    ((∀ q ∈ ps, q.2 ≠ g.root) → (∀ q ∈ ps, q.1 ≠ g.suggestedName) →
        detectCurrentProject (some g) ps = none) ∧
    detectCurrentProject none ps = none := by
  refine ⟨?_, ?_, ?_, rfl⟩
  · intro n h
    simp only [detectCurrentProject] at h
    cases hfind : ps.find? (fun q => q.2 = g.root) with
    | some q =>
      rw [hfind] at h
      injection h with h2
      have hq2' := List.find?_some hfind
      have hq2 : q.2 = g.root := of_decide_eq_true hq2'
      have hqmem : q ∈ ps := List.mem_of_find?_eq_some hfind
      left
      have : q = (n, g.root) := by
        calc q = (q.1, q.2) := rfl
        _ = (n, g.root) := by rw [h2, hq2]
      rwa [this] at hqmem
    | none =>
      rw [hfind] at h
      by_cases hany : ps.any (fun q => q.1 = g.suggestedName) = true
      · rw [if_pos hany] at h
        injection h with h2
        right
        refine ⟨?_, h2.symm, ?_⟩
        · intro q hq hq2
          have := List.find?_eq_none.mp hfind q hq
          exact this (decide_eq_true hq2)
        · rcases List.any_eq_true.mp hany with ⟨q, hq, hq1⟩
          exact ⟨q, hq, (of_decide_eq_true hq1).trans h2⟩
      · rw [if_neg hany] at h
        exact Option.noConfusion h
  · intro hroot hname
    have hfind : ps.find? (fun q => q.2 = g.root) = none :=
      List.find?_eq_none.mpr fun q hq =>
        by simpa using hroot q hq
    have hany : ps.any (fun q => q.1 = g.suggestedName) = true := by
      rcases hname with ⟨q, hq, hq1⟩
      exact List.any_eq_true.mpr ⟨q, hq, decide_eq_true hq1⟩
    simp only [detectCurrentProject]
    rw [hfind, if_pos hany]
  · intro hroot hname
    have hfind : ps.find? (fun q => q.2 = g.root) = none :=
      List.find?_eq_none.mpr fun q hq =>
        by simpa using hroot q hq
    have hany : ps.any (fun q => q.1 = g.suggestedName) = false := by
      rw [Bool.eq_false_iff]
      intro hc
      rcases List.any_eq_true.mp hc with ⟨q, hq, hq1⟩
      exact hname q hq (of_decide_eq_true hq1)
    simp only [detectCurrentProject]
    rw [hfind, if_neg (by simp [hany])]

/-- Witness for the amended C5 theorem: a root mismatch together with a
name mismatch yields no current project. -/
theorem c5_witness :
    detectCurrentProject (some ⟨"/y", "other"⟩) [("demo", "/x")] = none :=
  (c5_detect_with_name_fallback ⟨"/y", "other"⟩ [("demo", "/x")]).2.2.1
    (by decide) (by decide)

/-- Claim C6 counterexample: with an empty argument list and current
project `demo`, the forwarder substitutes `status` and then the normal
classification appends the project path filter — the resulting plan is
not the bare status command the claim requires. -/
theorem c6_counterexample :
    forwardPlan "/sync" [] (some "demo")
        = ⟨["status", "--", "projects/demo"], "/sync"⟩ ∧
    ((forwardPlan "/sync" [] (some "demo")).args
        == ["status"]) = false := by
  refine ⟨rfl, rfl⟩

/-- Claim C6 (amended): an absent command defaults to `status`, which then
flows through the ordinary classification: with no current project (or an
empty-named one) the plan is the bare status command, but with a known
nonempty current project the project path filter IS appended.  The
working directory is the centralized root in every case. -/
theorem c6_empty_args_plan (root : String) (cp : Option String) :
    (forwardPlan root [] cp).cwd = root ∧
    ((cp = none ∨ cp = some "") → (forwardPlan root [] cp).args = ["status"]) ∧
    (∀ p, cp = some p → p ≠ "" →
        (forwardPlan root [] cp).args
          = ["status", "--", "projects/" ++ p]) := by
  refine ⟨?_, ?_, ?_⟩
  · show (buildGitArgs root "status" ["status"] cp).cwd = root
    exact buildGitArgs_cwd root "status" ["status"] cp
  · rintro (rfl | rfl)
    · rfl
    · rfl
  · intro p hp hpne
    subst hp
    show (buildGitArgs root "status" ["status"] (some p)).args
      = ["status", "--", "projects/" ++ p]
    rw [buildGitArgs_scoped root "status" ["status"] p (by decide) hpne,
      if_neg (by decide)]
    rfl

/-- Witness for the amended C6 theorem at a concrete project. -/
theorem c6_witness :
    (forwardPlan "/sync" [] (some "demo")).args
      = ["status", "--", "projects/" ++ "demo"] :=
  (c6_empty_args_plan "/sync" (some "demo")).2.2 "demo" rfl (by decide)

end ClaudeSync
